import Mathlib

/-!
# Verification of the asset packer (`src/AssetsPackager.py`)

Shallow embedding of the asset-packing program: a Python script that
collects per-scene asset lists, partitions the assets into a shared set
(used by at least two scenes) and per-scene exclusive lists, packs each
group into a binary "bin" file (header, entry table, concatenated data),
and finally writes a single index file.

Bytes are modelled as `Nat` values below 256 in `List Nat`; files are byte
lists.  Python's file reads (the only failure source relevant here) are
modelled by a `resolver : String → Option (List Nat)` argument, `none`
standing for a raised `FileNotFoundError`/`IOError` which aborts the run.
-/

namespace AssetsPackager

/-- Replace every backslash character with a forward slash.  Models the
Python `s.replace("\\", "/")` used in `read_scene_assets` and `pack_bin`
(for a one-character pattern, `str.replace` is exactly a per-character map). -/
def normalizeSlashes (s : String) : String :=
  String.mk (s.data.map (fun c => if c = '\\' then '/' else c))

/-- Encode one character as its UTF-8 bytes (the standard Unicode scheme,
as performed by Python's `str.encode("utf-8")`). -/
def utf8EncodeChar (c : Char) : List Nat :=
  let n := c.toNat
  if n < 0x80 then [n]
  else if n < 0x800 then
    [0xC0 + n / 64, 0x80 + n % 64]
  else if n < 0x10000 then
    [0xE0 + n / 4096, 0x80 + n / 64 % 64, 0x80 + n % 64]
  else
    [0xF0 + n / 262144, 0x80 + n / 4096 % 64, 0x80 + n / 64 % 64, 0x80 + n % 64]

/-- UTF-8 bytes of a string: models Python `s.encode("utf-8")`. -/
def utf8Bytes (s : String) : List Nat :=
  (s.data.map utf8EncodeChar).flatten

/-- The byte string the program stores as the identifier of an asset:
`logical_path.encode("utf-8")` after backslash normalization.  This is what
occupies the identifier position both in a bin file's entry table
(`e["name"]`) and in the index file (`path_bytes`). -/
def assetIdBytes (path : String) : List Nat :=
  utf8Bytes (normalizeSlashes path)

/-- `MAGIC = b"ASPK"` from the script. -/
def MAGIC : List Nat := [65, 83, 80, 75]

/-- `VERSION = 1` from the script. -/
def VERSION : Nat := 1

/-- Little-endian encoding of `n` on `w` bytes, least significant byte
first.  Models `struct.pack` with formats `"<I"` (`w = 4`) and `"<Q"`
(`w = 8`); `struct.pack` raises on values out of range, which never occurs
for the quantities serialized here, so the truncating total function is
faithful on the program's domain. -/
def le : Nat → Nat → List Nat
  | 0, _ => []
  | w + 1, n => n % 256 :: le w (n / 256)

/-- 4-byte little-endian word, `struct.pack("<I", n)`. -/
def le32 (n : Nat) : List Nat := le 4 n

/-- 8-byte little-endian word, `struct.pack("<Q", n)`. -/
def le64 (n : Nat) : List Nat := le 8 n

/-- One entry of a bin file, mirroring the dict built in `pack_bin`:
`name` is the UTF-8 encoding of the logical path, `asset` the logical path
string kept for the index, `offset`/`size` the data location. -/
structure Entry where
  name : List Nat
  asset : String
  offset : Nat
  size : Nat
deriving DecidableEq, Repr, Inhabited

/-- `header_size = 4 + 4 + 4` in `pack_bin`: MAGIC, VERSION, entry count. -/
def header_size : Nat := 4 + 4 + 4

/-- Serialized size of one entry-table row:
`4 + len(e["name"]) + 8 + 8` (name length word, name bytes, offset, size). -/
def entrySerSize (e : Entry) : Nat := 4 + e.name.length + 8 + 8

/-- `entry_table_size` in `pack_bin`: sum of row sizes. -/
def entryTableSize (entries : List Entry) : Nat :=
  (entries.map entrySerSize).sum

/-- First loop of `pack_bin`: read every asset (any failure aborts the whole
call before anything is written) and pair each normalized logical path with
its bytes.  `os.path.relpath(os.path.join(root, a), root)` is `a` itself for
the relative, dot-free paths the descriptors contain, so the logical path is
the asset string with backslashes normalized. -/
def resolveAssets : List String → (String → Option (List Nat)) → Option (List (String × List Nat))
  | [], _ => some []
  | a :: rest, resolver =>
    match resolver a with
    | none => none
    | some data =>
      match resolveAssets rest resolver with
      | none => none
      | some tl => some ((normalizeSlashes a, data) :: tl)

/-- The entry dict as first built in `pack_bin`, with the placeholder
offset `0`. -/
def mkEntry (logical : String) (data : List Nat) : Entry :=
  { name := utf8Bytes logical, asset := logical, offset := 0, size := data.length }

/-- The `entries` list after the first loop of `pack_bin`. -/
def entriesPhase1 (assetDatas : List (String × List Nat)) : List Entry :=
  assetDatas.map (fun p => mkEntry p.1 p.2)

/-- Second loop of `pack_bin`: assign `e["offset"] = data_start_offset +
running_offset`, advance `running_offset` by the data length, and extend
`data_blob`.  Returns the finished entries together with the data blob. -/
def setOffsets (dataStart : Nat) : Nat → List (Entry × List Nat) → List Entry × List Nat
  | _, [] => ([], [])
  | running, (e, data) :: rest =>
    let tl := setOffsets dataStart (running + data.length) rest
    ({ e with offset := dataStart + running } :: tl.1, data ++ tl.2)

/-- Serialization of one entry-table row in `pack_bin`'s write loop:
name length (`"<I"`), name bytes, offset (`"<Q"`), size (`"<Q"`). -/
def serEntry (e : Entry) : List Nat :=
  le32 e.name.length ++ e.name ++ le64 e.offset ++ le64 e.size

/-- The bytes `pack_bin` writes to the bin file: MAGIC, version, entry
count, entry table, then the whole data blob. -/
def binFileBytes (entries : List Entry) (blob : List Nat) : List Nat :=
  MAGIC ++ le32 VERSION ++ le32 entries.length ++ (entries.map serEntry).flatten ++ blob

/-- `pack_bin(bin_name, assets, asset_root, out_dir)`: resolve all assets in
memory, compute offsets from `data_start_offset = header_size +
entry_table_size`, and serialize.  `none` models an asset read failing,
in which case nothing is written for this bin.  Returns the entry list
(consumed by `main` for the index) and the file's bytes. -/
def packBin (assets : List String) (resolver : String → Option (List Nat)) :
    Option (List Entry × List Nat) :=
  match resolveAssets assets resolver with
  | none => none
  | some assetDatas =>
    let entries0 := entriesPhase1 assetDatas
    let dataStart := header_size + entryTableSize entries0
    let packed := setOffsets dataStart 0 (entries0.zip (assetDatas.map Prod.snd))
    some (packed.1, binFileBytes packed.1 packed.2)

/-- `read_scene_assets`: strip each line, drop blank lines and `#` comments,
normalize Windows backslashes.  The descriptor file is modelled as its list
of lines. -/
def read_scene_assets (lines : List String) : List String :=
  ((lines.map String.trim).filter
      (fun l => !(l == "") && !(l.startsWith "#"))).map normalizeSlashes

/-- Python set `add`: insert a scene name unless already present.  Only the
size of the set matters downstream, so the insertion-ordered list is a
faithful model. -/
def addSceneToSet (s : List String) (scene : String) : List String :=
  if scene ∈ s then s else s ++ [scene]

/-- One step of `usage[a].add(scene)` on the `defaultdict(set)`, modelled as
an insertion-ordered association list from asset path to its set of scenes. -/
def insertUsage : List (String × List String) → String → String → List (String × List String)
  | [], a, scene => [(a, [scene])]
  | (b, s) :: rest, a, scene =>
    if b = a then (b, addSceneToSet s scene) :: rest
    else (b, s) :: insertUsage rest a scene

/-- The `usage` table after the double loop in `main`:
`for scene, ntfg in scenes.items(): for a in assets: usage[a].add(scene)`.
Scenes are the association list `scene name ↦ asset list` in the dict's
iteration order. -/
def buildUsage (scenes : List (String × List String)) : List (String × List String) :=
  scenes.foldl (fun u sc => sc.2.foldl (fun u2 a => insertUsage u2 a sc.1) u) []

/-- `shared_assets = [a for a, s in usage.items() if len(s) > 1]`. -/
def shared_assets (scenes : List (String × List String)) : List String :=
  ((buildUsage scenes).filter (fun p => decide (1 < p.2.length))).map Prod.fst

/-- `scene_only`: each scene's list with every shared asset filtered out. -/
def scene_only (scenes : List (String × List String)) : List (String × List String) :=
  scenes.map (fun sc => (sc.1, sc.2.filter (fun a => decide (a ∉ shared_assets scenes))))

/-- One record of the `asset_index` list accumulated in `main`:
`(e["asset"], bin_ids[bin_name], e["offset"], e["size"])`. -/
structure IndexRecord where
  asset : String
  binId : Nat
  offset : Nat
  size : Nat
deriving DecidableEq, Repr, Inhabited

/-- Serialization of one index record in `main`'s final loop: path length
(`"<I"`), path bytes, then `struct.pack("<I Q Q", bin_id, offset, size)`
(standard little-endian mode: no padding between the fields). -/
def serIndexRecord (r : IndexRecord) : List Nat :=
  le32 (utf8Bytes r.asset).length ++ utf8Bytes r.asset
    ++ le32 r.binId ++ le64 r.offset ++ le64 r.size

/-- The bytes of `assets.idx`: record count then the records in
accumulation order. -/
def indexFileBytes (records : List IndexRecord) : List Nat :=
  le32 records.length ++ (records.map serIndexRecord).flatten

/-- The sequence of `pack_bin` calls `main` makes: the shared bin first when
`shared_assets` is non-empty, then one bin per scene whose filtered list is
non-empty, in scene iteration order.  Each item is the bin file name and the
asset list passed to `pack_bin`. -/
def binPlan (scenes : List (String × List String)) : List (String × List String) :=
  (if shared_assets scenes = [] then [] else [("shared.bin", shared_assets scenes)])
    ++ (scene_only scenes).filterMap
        (fun sc => if sc.2 = [] then none else some (sc.1 ++ ".bin", sc.2))

/-- The mutable state `main` threads through its bin-packing loops:
`next_bin_id`, the `bin_ids` assignments in assignment order, the
accumulated `asset_index`, and the bin files already written to disk
(name and bytes, in write order). -/
structure MainState where
  nextBinId : Nat
  binIds : List (String × Nat)
  assetIndex : List IndexRecord
  files : List (String × List Nat)
deriving Repr

/-- The initial state of `main`: counter 0, nothing assigned or written. -/
def initState : MainState :=
  { nextBinId := 0, binIds := [], assetIndex := [], files := [] }

/-- Pack the planned bins in order.  Each successful `pack_bin` call writes
its file immediately and appends its entries (tagged with the bin id) to
`asset_index`; the first failing call raises, ending the run with the files
written so far still on disk.  Returns the final state and whether the loop
completed. -/
def runBins (resolver : String → Option (List Nat)) :
    MainState → List (String × List String) → MainState × Bool
  | st, [] => (st, true)
  | st, (name, assets) :: rest =>
    match packBin assets resolver with
    | none => (st, false)
    | some packed =>
      runBins resolver
        { nextBinId := st.nextBinId + 1,
          binIds := st.binIds ++ [(name, st.nextBinId)],
          assetIndex := st.assetIndex ++ packed.1.map
            (fun e => { asset := e.asset, binId := st.nextBinId,
                        offset := e.offset, size := e.size }),
          files := st.files ++ [(name, packed.2)] } rest

/-- The state update one successful loop iteration of `main` performs (the
record written inline in `runBins`): bump the id counter, record the id
assignment, append the bin's index records, write the bin file. -/
def stepState (st : MainState) (name : String) (packed : List Entry × List Nat) :
    MainState :=
  { nextBinId := st.nextBinId + 1,
    binIds := st.binIds ++ [(name, st.nextBinId)],
    assetIndex := st.assetIndex ++ packed.1.map
      (fun e => { asset := e.asset, binId := st.nextBinId,
                  offset := e.offset, size := e.size }),
    files := st.files ++ [(name, packed.2)] }

/-- Outcome of one `main` run: final state, whether all bins were packed,
and the bytes of `assets.idx` when the run reached the index-writing step
(`none` when an earlier failure aborted the run before it). -/
structure PackResult where
  st : MainState
  ok : Bool
  idxFile : Option (List Nat)
deriving Repr

/-- `main(asset_root, output_dir)` after scene discovery and descriptor
reading: usage analysis, shared bin, scene bins, then the index file.
`scenes` is the mapping scene name ↦ asset list produced by
`read_scene_assets` (so its paths are already slash-normalized), in the
scene dict's iteration order. -/
def runMain (scenes : List (String × List String))
    (resolver : String → Option (List Nat)) : PackResult :=
  let r := runBins resolver initState (binPlan scenes)
  { st := r.1, ok := r.2,
    idxFile := if r.2 then some (indexFileBytes r.1.assetIndex) else none }

/-- Number of index records carrying asset path `a`. -/
def countAsset (records : List IndexRecord) (a : String) : Nat :=
  (records.filter (fun r => r.asset == a)).length

/-- Closed form of a successful `resolveAssets` call: every asset paired
with its normalized path and its resolved bytes. -/
def resolvedDatas (assets : List String) (resolver : String → Option (List Nat)) :
    List (String × List Nat) :=
  assets.map (fun a => (normalizeSlashes a, (resolver a).getD []))

/-- The `(entries, fileBytes)` pair produced for a planned bin on a run in
which its `pack_bin` call succeeded. -/
def packedOf (resolver : String → Option (List Nat)) (b : String × List String) :
    List Entry × List Nat :=
  (packBin b.2 resolver).getD ([], [])

/-- The index records `main` appends for the bin `ib.2` packed under bin id
`ib.1`. -/
def recordsOf (resolver : String → Option (List Nat))
    (ib : Nat × (String × List String)) : List IndexRecord :=
  (packedOf resolver ib.2).1.map
    (fun e => { asset := e.asset, binId := ib.1, offset := e.offset, size := e.size })

/-- Fold of set insertion, used to describe the usage table. -/
def addAll (s : List String) (names : List String) : List String :=
  names.foldl addSceneToSet s

/-- The scene names whose asset list mentions `a`, in scene iteration
order. -/
def scenesUsing (scenes : List (String × List String)) (a : String) : List String :=
  (scenes.filter (fun sc => decide (a ∈ sc.2))).map Prod.fst

/-! ## Basic serialization lemmas -/

theorem le_length (w n : Nat) : (le w n).length = w := by
  induction w generalizing n with
  | zero => rfl
  | succ w ih => simp [le, ih]

theorem serEntry_length (e : Entry) : (serEntry e).length = entrySerSize e := by
  simp [serEntry, entrySerSize, le32, le64, le_length]
  omega

theorem entryTable_length (entries : List Entry) :
    ((entries.map serEntry).flatten).length = entryTableSize entries := by
  induction entries with
  | nil => rfl
  | cons e es ih =>
    simp only [List.map_cons, List.flatten_cons, List.length_append, ih,
      entryTableSize, List.sum_cons, serEntry_length]

theorem entryTableSize_eq_of_names (l₁ l₂ : List Entry)
    (h : l₁.map Entry.name = l₂.map Entry.name) :
    entryTableSize l₁ = entryTableSize l₂ := by
  have key : ∀ l : List Entry,
      l.map entrySerSize = (l.map Entry.name).map (fun nm => 4 + nm.length + 8 + 8) := by
    intro l; rw [List.map_map]; rfl
  unfold entryTableSize
  rw [key, key, h]

/-! ## `setOffsets` lemmas -/

theorem setOffsets_length (ds : Nat) (r : Nat) (ps : List (Entry × List Nat)) :
    (setOffsets ds r ps).1.length = ps.length := by
  induction ps generalizing r with
  | nil => rfl
  | cons p ps ih => obtain ⟨e, d⟩ := p; simp [setOffsets, ih]

theorem setOffsets_blob (ds : Nat) (r : Nat) (ps : List (Entry × List Nat)) :
    (setOffsets ds r ps).2 = (ps.map Prod.snd).flatten := by
  induction ps generalizing r with
  | nil => rfl
  | cons p ps ih => obtain ⟨e, d⟩ := p; simp [setOffsets, ih]

theorem setOffsets_map {α : Type} (ds : Nat) (f : Entry → α)
    (hf : ∀ e o, f { e with offset := o } = f e) (r : Nat)
    (ps : List (Entry × List Nat)) :
    (setOffsets ds r ps).1.map f = ps.map (fun p => f p.1) := by
  induction ps generalizing r with
  | nil => rfl
  | cons p ps ih => obtain ⟨e, d⟩ := p; simp [setOffsets, hf, ih]

theorem setOffsets_getD (ds : Nat) (ps : List (Entry × List Nat)) (r i : Nat)
    (h : i < ps.length) :
    (setOffsets ds r ps).1.getD i default =
      { (ps.getD i (default, [])).1 with
          offset := ds + r + ((ps.take i).map (fun p => p.2.length)).sum } := by
  induction ps generalizing r i with
  | nil => simp at h
  | cons p ps ih =>
    obtain ⟨e, d⟩ := p
    cases i with
    | zero => simp [setOffsets]
    | succ i =>
      have h2 : i < ps.length := by simpa using h
      simp only [setOffsets, List.getD_cons_succ, List.take_succ_cons, List.map_cons,
        List.sum_cons]
      rw [ih (r + d.length) i h2]
      have : ds + (r + d.length) + ((ps.take i).map (fun p => p.2.length)).sum
          = ds + r + (d.length + ((ps.take i).map (fun p => p.2.length)).sum) := by omega
      rw [this]

/-! ## `resolveAssets` and `packBin` characterization -/

theorem resolveAssets_eq (assets : List String) (resolver : String → Option (List Nat))
    (ads : List (String × List Nat)) (h : resolveAssets assets resolver = some ads) :
    ads = resolvedDatas assets resolver := by
  induction assets generalizing ads with
  | nil =>
    simp only [resolveAssets, Option.some.injEq] at h
    simp [resolvedDatas, ← h]
  | cons a rest ih =>
    simp only [resolveAssets] at h
    cases hr : resolver a with
    | none => rw [hr] at h; simp at h
    | some d =>
      rw [hr] at h
      cases hrest : resolveAssets rest resolver with
      | none => rw [hrest] at h; simp at h
      | some tl =>
        rw [hrest] at h
        simp only [Option.some.injEq] at h
        simp [resolvedDatas, ← h, ih tl hrest, hr]

theorem pairs_eq (D : List (String × List Nat)) :
    (entriesPhase1 D).zip (D.map Prod.snd) = D.map (fun p => (mkEntry p.1 p.2, p.2)) := by
  rw [entriesPhase1]
  exact List.zip_map' _ _ D

theorem packBin_eq (assets : List String) (resolver : String → Option (List Nat))
    (entries : List Entry) (bytes : List Nat)
    (h : packBin assets resolver = some (entries, bytes)) :
    entries = (setOffsets
        (header_size + entryTableSize (entriesPhase1 (resolvedDatas assets resolver))) 0
        ((resolvedDatas assets resolver).map (fun p => (mkEntry p.1 p.2, p.2)))).1
    ∧ bytes = binFileBytes entries
        (((resolvedDatas assets resolver).map Prod.snd).flatten) := by
  unfold packBin at h
  cases hr : resolveAssets assets resolver with
  | none => rw [hr] at h; simp at h
  | some ads =>
    rw [hr] at h
    simp only [Option.some.injEq, Prod.mk.injEq] at h
    obtain ⟨h1, h2⟩ := h
    obtain rfl := resolveAssets_eq assets resolver ads hr
    rw [pairs_eq] at h1 h2
    refine ⟨h1.symm, ?_⟩
    rw [← h2, ← h1, setOffsets_blob, List.map_map]
    rfl

theorem getD_map_of_lt {α β : Type} (f : α → β) (l : List α) (i : Nat)
    (h : i < l.length) (d : β) (d0 : α) :
    (l.map f).getD i d = f (l.getD i d0) := by
  rw [List.getD_eq_getElem _ _ (by simpa using h), List.getD_eq_getElem _ _ h,
    List.getElem_map]

theorem sum_map_take_succ {α : Type} (f : α → Nat) (l : List α) (i : Nat)
    (h : i < l.length) (d : α) :
    ((l.take (i + 1)).map f).sum = ((l.take i).map f).sum + f (l.getD i d) := by
  have hg : (l.map f)[i]? = some (f l[i]) := by
    rw [List.getElem?_eq_getElem (by simpa using h), List.getElem_map]
  rw [List.map_take, List.map_take, List.take_succ, hg]
  simp [List.getD_eq_getElem l d h, List.getElem?_eq_getElem h]

theorem packBin_length (assets : List String) (resolver : String → Option (List Nat))
    (entries : List Entry) (bytes : List Nat)
    (h : packBin assets resolver = some (entries, bytes)) :
    entries.length = assets.length := by
  obtain ⟨h1, _⟩ := packBin_eq assets resolver entries bytes h
  rw [h1, setOffsets_length]
  simp [resolvedDatas]

theorem packBin_map_asset (assets : List String) (resolver : String → Option (List Nat))
    (entries : List Entry) (bytes : List Nat)
    (h : packBin assets resolver = some (entries, bytes)) :
    entries.map Entry.asset = assets.map normalizeSlashes := by
  obtain ⟨h1, _⟩ := packBin_eq assets resolver entries bytes h
  rw [h1, setOffsets_map _ Entry.asset (fun e o => rfl), List.map_map]
  simp [resolvedDatas, mkEntry, Function.comp]

theorem packBin_map_size (assets : List String) (resolver : String → Option (List Nat))
    (entries : List Entry) (bytes : List Nat)
    (h : packBin assets resolver = some (entries, bytes)) :
    entries.map Entry.size = assets.map (fun a => ((resolver a).getD []).length) := by
  obtain ⟨h1, _⟩ := packBin_eq assets resolver entries bytes h
  rw [h1, setOffsets_map _ Entry.size (fun e o => rfl), List.map_map]
  simp [resolvedDatas, mkEntry, Function.comp]

theorem packBin_tableSize (assets : List String) (resolver : String → Option (List Nat))
    (entries : List Entry) (bytes : List Nat)
    (h : packBin assets resolver = some (entries, bytes)) :
    entryTableSize entries
      = entryTableSize (entriesPhase1 (resolvedDatas assets resolver)) := by
  obtain ⟨h1, _⟩ := packBin_eq assets resolver entries bytes h
  refine entryTableSize_eq_of_names _ _ ?_
  rw [h1, setOffsets_map _ Entry.name (fun e o => rfl), List.map_map, entriesPhase1,
    List.map_map]
  rfl

theorem packBin_getD (assets : List String) (resolver : String → Option (List Nat))
    (entries : List Entry) (bytes : List Nat)
    (h : packBin assets resolver = some (entries, bytes))
    (i : Nat) (hi : i < entries.length) :
    entries.getD i default =
      { name := utf8Bytes (normalizeSlashes (assets.getD i "")),
        asset := normalizeSlashes (assets.getD i ""),
        offset := header_size + entryTableSize entries
          + ((entries.take i).map Entry.size).sum,
        size := ((resolver (assets.getD i "")).getD []).length } := by
  obtain ⟨h1, -⟩ := packBin_eq assets resolver entries bytes h
  have hlen : entries.length = assets.length := packBin_length assets resolver entries bytes h
  have hAlen : i < assets.length := by omega
  have hDlen : i < (resolvedDatas assets resolver).length := by
    simpa [resolvedDatas] using hAlen
  have hPlen : i < ((resolvedDatas assets resolver).map
      (fun p => (mkEntry p.1 p.2, p.2))).length := by
    simpa using hDlen
  have hmap : entries.map Entry.size
      = (resolvedDatas assets resolver).map (fun p => p.2.length) := by
    rw [h1, setOffsets_map _ Entry.size (fun e o => rfl), List.map_map]
    rfl
  have hsum : ((((resolvedDatas assets resolver).map
        (fun p => (mkEntry p.1 p.2, p.2))).take i).map (fun p => p.2.length)).sum
      = ((entries.take i).map Entry.size).sum := by
    rw [List.map_take, List.map_map, List.map_take, hmap]
    rfl
  have hds : entryTableSize entries
      = entryTableSize (entriesPhase1 (resolvedDatas assets resolver)) :=
    packBin_tableSize assets resolver entries bytes h
  conv_lhs => rw [h1]
  rw [setOffsets_getD _ _ _ _ hPlen, hsum]
  rw [getD_map_of_lt (fun p => (mkEntry p.1 p.2, p.2)) _ _ hDlen _ ("", [])]
  rw [show (resolvedDatas assets resolver) = assets.map
      (fun a => (normalizeSlashes a, (resolver a).getD [])) from rfl]
  rw [getD_map_of_lt (fun a => (normalizeSlashes a, (resolver a).getD []))
    assets i hAlen ("", []) ""]
  simp only [mkEntry]
  simp
  exact hds.symm

theorem headerTable_length (entries : List Entry) :
    (MAGIC ++ le32 VERSION ++ le32 entries.length ++ (entries.map serEntry).flatten).length
      = header_size + entryTableSize entries := by
  simp only [List.length_append, entryTable_length]
  simp [MAGIC, le32, le_length, header_size]

theorem binFileBytes_assoc (entries : List Entry) (blob : List Nat) :
    binFileBytes entries blob
      = (MAGIC ++ le32 VERSION ++ le32 entries.length ++ (entries.map serEntry).flatten)
          ++ blob := by
  simp [binFileBytes, List.append_assoc]

theorem binFileBytes_drop (entries : List Entry) (blob : List Nat) (n : Nat) :
    (binFileBytes entries blob).drop (header_size + entryTableSize entries + n)
      = blob.drop n := by
  rw [binFileBytes_assoc, ← headerTable_length entries]
  generalize (MAGIC ++ le32 VERSION ++ le32 entries.length ++ (entries.map serEntry).flatten)
    = pre
  simp [List.drop_append]

theorem flatten_extract {α : Type} (ll : List (List α)) (i : Nat) (h : i < ll.length) :
    ((ll.flatten.drop (((ll.take i).map List.length).sum)).take (ll.getD i []).length)
      = ll.getD i [] := by
  induction ll generalizing i with
  | nil => simp at h
  | cons l ls ih =>
    cases i with
    | zero => simp
    | succ i =>
      have h2 : i < ls.length := by simpa using h
      simp only [List.take_succ_cons, List.map_cons, List.sum_cons, List.flatten_cons,
        List.getD_cons_succ]
      rw [List.drop_append, ih i h2]

theorem packBin_map_size_datas (assets : List String)
    (resolver : String → Option (List Nat)) (entries : List Entry) (bytes : List Nat)
    (h : packBin assets resolver = some (entries, bytes)) :
    entries.map Entry.size
      = ((assets.map (fun a => (resolver a).getD [])).map List.length) := by
  rw [packBin_map_size assets resolver entries bytes h, List.map_map]
  rfl

/-- Claim C10: a bin's returned entries are in input-asset order and their
offsets are contiguous, the first one sitting right after the header and
the entry table (offsets in this format are file-absolute, so the first
data byte is at `header_size + entryTableSize`). -/
theorem claim_c10_entry_order_and_contiguity (assets : List String)
    (resolver : String → Option (List Nat)) (entries : List Entry) (bytes : List Nat)
    (hp : packBin assets resolver = some (entries, bytes)) :
    entries.length = assets.length
    ∧ (∀ i, i < entries.length →
        (entries.getD i default).asset = normalizeSlashes (assets.getD i ""))
    ∧ (entries ≠ [] →
        (entries.headD default).offset = header_size + entryTableSize entries)
    ∧ (∀ i, i + 1 < entries.length →
        (entries.getD (i + 1) default).offset
          = (entries.getD i default).offset + (entries.getD i default).size) := by
  refine ⟨packBin_length _ _ _ _ hp, ?_, ?_, ?_⟩
  · intro i hi
    rw [packBin_getD assets resolver entries bytes hp i hi]
  · intro hne
    have h0 : 0 < entries.length := List.length_pos.mpr hne
    have hhead : entries.headD default = entries.getD 0 default := by
      cases entries with
      | nil => simp at hne
      | cons e es => rfl
    rw [hhead, packBin_getD assets resolver entries bytes hp 0 h0]
    simp
  · intro i hi
    have hi1 : i < entries.length := by omega
    rw [packBin_getD assets resolver entries bytes hp (i + 1) hi,
        sum_map_take_succ Entry.size entries i hi1 default,
        packBin_getD assets resolver entries bytes hp i hi1]
    simp
    omega

/-- Witness for C10 at a concrete two-asset bin. -/
theorem claim_c10_witness :
    ((packBin ["a", "bc"] (fun p => if p = "a" then some [1, 2] else some [3])).getD
        ([], [])).1.length = 2 := by
  have hp : packBin ["a", "bc"] (fun p => if p = "a" then some [1, 2] else some [3])
      = some
        (((packBin ["a", "bc"] (fun p => if p = "a" then some [1, 2] else some [3])).getD
            ([], [])).1,
         ((packBin ["a", "bc"] (fun p => if p = "a" then some [1, 2] else some [3])).getD
            ([], [])).2) := by decide
  have h := claim_c10_entry_order_and_contiguity _ _ _ _ hp
  simpa using h.1

/-- Claim C9: the recorded `(offset, size)` pair of every entry bounds the
original asset bytes inside the produced bin file: dropping `offset` bytes
and taking `size` bytes reproduces the resolver's content for that asset. -/
theorem claim_c9_roundtrip (assets : List String)
    (resolver : String → Option (List Nat)) (entries : List Entry) (bytes : List Nat)
    (hp : packBin assets resolver = some (entries, bytes))
    (i : Nat) (hi : i < entries.length) (data : List Nat)
    (hr : resolver (assets.getD i "") = some data) :
    (bytes.drop ((entries.getD i default).offset)).take ((entries.getD i default).size)
      = data := by
  obtain ⟨-, h2⟩ := packBin_eq assets resolver entries bytes hp
  have hlen : entries.length = assets.length := packBin_length assets resolver entries bytes hp
  have hblob : ((resolvedDatas assets resolver).map Prod.snd).flatten
      = (assets.map (fun a => (resolver a).getD [])).flatten := by
    rw [resolvedDatas, List.map_map]
    rfl
  have hdlen : i < (assets.map (fun a => (resolver a).getD [])).length := by
    simp; omega
  have hpre : ((entries.take i).map Entry.size).sum
      = (((assets.map (fun a => (resolver a).getD [])).take i).map List.length).sum := by
    rw [List.map_take, List.map_take, packBin_map_size_datas assets resolver entries bytes hp]
  have hgd : (assets.map (fun a => (resolver a).getD [])).getD i [] = data := by
    rw [getD_map_of_lt (fun a => (resolver a).getD []) assets i (by omega) [] ""]
    show (resolver (assets.getD i "")).getD [] = data
    rw [hr]
    rfl
  have hoff : (entries.getD i default).offset
      = header_size + entryTableSize entries + ((entries.take i).map Entry.size).sum := by
    rw [packBin_getD assets resolver entries bytes hp i hi]
  have hsz : (entries.getD i default).size = data.length := by
    rw [packBin_getD assets resolver entries bytes hp i hi]
    show ((resolver (assets.getD i "")).getD []).length = data.length
    rw [hr]
    rfl
  rw [hoff, hsz, h2, hblob, binFileBytes_drop, hpre]
  have hext := flatten_extract (assets.map (fun a => (resolver a).getD [])) i hdlen
  rw [hgd] at hext
  exact hext

/-- Witness for C9: the single entry of a one-asset bin recovers its data. -/
theorem claim_c9_witness :
    ((binFileBytes [{ name := [97], asset := "a", offset := 33, size := 2 }]
        [7, 9]).drop 33).take 2 = [7, 9] := by
  have h := claim_c9_roundtrip ["a"] (fun _ => some [7, 9])
    [{ name := [97], asset := "a", offset := 33, size := 2 }]
    (binFileBytes [{ name := [97], asset := "a", offset := 33, size := 2 }] [7, 9])
    (by decide) 0 (by decide) [7, 9] (by decide)
  simpa using h

/-- Claim C2 counterexample: the claim forces a one-entry bin holding 2 data
bytes to be `12 + 24·1 + 2 = 38` bytes long (4-byte magic, 4-byte version,
4-byte count, one fixed 24-byte entry, data), but the program produces 35
bytes for the one-byte path `"a"`: its entry table rows are variable-length
(`4 + len(name) + 16` bytes), not 24-byte fixed. -/
theorem claim_c2_counterexample :
    ((packBin ["a"] (fun _ => some [1, 2])).map (fun p => p.2.length)) = some 35
    ∧ 35 ≠ 12 + 24 * 1 + 2 := by
  exact ⟨by decide, by decide⟩

/-- Claim C2 (amended): after the 4-byte magic, 4-byte little-endian version
and 4-byte little-endian entry count, a produced bin file holds a
variable-length entry table — per entry a 4-byte little-endian name length,
the name bytes, an 8-byte little-endian offset and an 8-byte little-endian
size — followed immediately by the concatenated asset data. -/
theorem claim_c2_amended_layout (assets : List String)
    (resolver : String → Option (List Nat)) (entries : List Entry) (bytes : List Nat)
    (hp : packBin assets resolver = some (entries, bytes)) :
    bytes = MAGIC ++ le32 VERSION ++ le32 entries.length
        ++ ((entries.map serEntry).flatten
        ++ (assets.map (fun a => (resolver a).getD [])).flatten)
    ∧ (∀ e ∈ entries,
        serEntry e = le32 e.name.length ++ e.name ++ le64 e.offset ++ le64 e.size)
    ∧ (∀ e ∈ entries, (serEntry e).length = 4 + e.name.length + 8 + 8)
    ∧ bytes.length = header_size + entryTableSize entries
        + (entries.map Entry.size).sum := by
  obtain ⟨-, h2⟩ := packBin_eq assets resolver entries bytes hp
  have hblob : ((resolvedDatas assets resolver).map Prod.snd).flatten
      = (assets.map (fun a => (resolver a).getD [])).flatten := by
    rw [resolvedDatas, List.map_map]
    rfl
  have hbytes : bytes = MAGIC ++ le32 VERSION ++ le32 entries.length
      ++ ((entries.map serEntry).flatten
      ++ (assets.map (fun a => (resolver a).getD [])).flatten) := by
    rw [h2, hblob, binFileBytes]
    simp [List.append_assoc]
  have hser : ∀ e ∈ entries, (serEntry e).length = 4 + e.name.length + 8 + 8 := by
    intro e _
    rw [serEntry_length e]
    rfl
  refine ⟨hbytes, fun e _ => rfl, hser, ?_⟩
  rw [hbytes]
  simp only [List.length_append]
  rw [entryTable_length, List.length_flatten]
  have hsz : ((assets.map (fun a => (resolver a).getD [])).map List.length).sum
      = (entries.map Entry.size).sum := by
    rw [packBin_map_size_datas assets resolver entries bytes hp]
  rw [hsz]
  simp [MAGIC, le32, le_length, header_size]
  omega

/-- Witness for C2 (amended) at a concrete one-asset bin. -/
theorem claim_c2_amended_witness :
    binFileBytes [{ name := [97], asset := "a", offset := 33, size := 2 }] [1, 2]
      = MAGIC ++ le32 VERSION
          ++ le32 ([{ name := [97], asset := "a", offset := 33, size := 2 }] : List Entry).length
          ++ (([{ name := [97], asset := "a", offset := 33, size := 2 }] : List Entry).map
                serEntry).flatten
          ++ ((["a"] : List String).map
                (fun a => ((fun _ => some [1, 2]) a).getD [])).flatten := by
  have h := claim_c2_amended_layout ["a"] (fun _ => some [1, 2])
    [{ name := [97], asset := "a", offset := 33, size := 2 }]
    (binFileBytes [{ name := [97], asset := "a", offset := 33, size := 2 }] [1, 2])
    (by decide)
  simpa [List.append_assoc] using h.1

theorem normalizeSlashes_idem (s : String) :
    normalizeSlashes (normalizeSlashes s) = normalizeSlashes s := by
  unfold normalizeSlashes
  rw [show (String.mk (s.data.map (fun c => if c = '\\' then '/' else c))).data
      = s.data.map (fun c => if c = '\\' then '/' else c) from rfl]
  rw [List.map_map]
  refine congrArg String.mk (List.map_congr_left fun c hc => ?_)
  by_cases h : c = '\\' <;> simp [h, Function.comp]

/-- Claim C1 counterexample: the program stores no 8-byte digest-derived
identifier at all.  The identifier bytes recorded for the path
`"textures/grass.png"` are its 18 UTF-8 path bytes, not the first 8 bytes
of a 128-bit digest read as a little-endian u64 (which would always occupy
exactly 8 bytes). -/
theorem claim_c1_counterexample :
    (assetIdBytes "textures/grass.png").length = 18 ∧ (18 : Nat) ≠ 8 :=
  ⟨by decide, by decide⟩

/-- Claim C1 (amended): the asset identification normalizes path separators
to `/` and UTF-8-encodes the result, using those bytes directly as the
identifier (no digest, no 64-bit truncation).  It is deterministic and pure
by construction, invariant under repeated normalization, maps the
backslashed spelling of a path to the same identifier as its
forward-slashed spelling, and gives the two fixed distinct test paths
distinct identifiers. -/
theorem claim_c1_amended_identifier (p : String) :
    assetIdBytes p = utf8Bytes (normalizeSlashes p)
    ∧ assetIdBytes (normalizeSlashes p) = assetIdBytes p
    ∧ assetIdBytes "textures\\grass.png" = assetIdBytes "textures/grass.png"
    ∧ assetIdBytes "textures/grass.png" ≠ assetIdBytes "models/tree.obj" := by
  refine ⟨rfl, ?_, by decide, by decide⟩
  unfold assetIdBytes
  rw [normalizeSlashes_idem]

/-- Claim C4 counterexample: for a one-asset bin the single (hence first)
entry is recorded at offset 33 = 12-byte header + 21-byte entry table, the
absolute position of its data in the file.  Were offsets relative to the
start of the data segment, the first appended asset would be recorded at
offset 0. -/
theorem claim_c4_counterexample :
    (packBin ["a"] (fun _ => some [1, 2])).map (fun p => (p.1.headD default).offset)
      = some 33
    ∧ (33 : Nat) ≠ 0 :=
  ⟨by decide, by decide⟩

/-! ## Usage-analysis lemmas -/

theorem addSceneToSet_idem (s : List String) (n : String) :
    addSceneToSet (addSceneToSet s n) n = addSceneToSet s n := by
  unfold addSceneToSet
  by_cases h : n ∈ s
  · simp [h]
  · simp [h]

theorem addSceneToSet_ne_nil (s : List String) (n : String) :
    addSceneToSet s n ≠ [] := by
  unfold addSceneToSet
  by_cases h : n ∈ s
  · simp [h]
    rintro rfl
    simp at h
  · simp [h]

theorem lookup_insertUsage_self (u : List (String × List String)) (a scene : String) :
    ((insertUsage u a scene).lookup a).getD []
      = addSceneToSet ((u.lookup a).getD []) scene := by
  induction u with
  | nil => simp [insertUsage, List.lookup, addSceneToSet]
  | cons p rest ih =>
    obtain ⟨b, s⟩ := p
    by_cases h : b = a
    · subst h
      simp [insertUsage, List.lookup]
    · simp [insertUsage, h, List.lookup, beq_false_of_ne (Ne.symm h), ih]

theorem lookup_insertUsage_other (u : List (String × List String)) (a b scene : String)
    (h : a ≠ b) :
    (insertUsage u a scene).lookup b = u.lookup b := by
  induction u with
  | nil => simp [insertUsage, List.lookup, beq_false_of_ne (Ne.symm h)]
  | cons p rest ih =>
    obtain ⟨k, s⟩ := p
    by_cases hk : k = a
    · subst hk
      simp [insertUsage, List.lookup, beq_false_of_ne (Ne.symm h)]
    · simp [insertUsage, hk, List.lookup, ih]

theorem lookup_addScene_fold (n : String) (l : List String)
    (u : List (String × List String)) (a : String) :
    (((l.foldl (fun u2 x => insertUsage u2 x n) u).lookup a).getD [])
      = if a ∈ l then addSceneToSet ((u.lookup a).getD []) n
        else (u.lookup a).getD [] := by
  induction l generalizing u with
  | nil => simp
  | cons x l ih =>
    simp only [List.foldl_cons]
    rw [ih (insertUsage u x n)]
    by_cases hx : x = a
    · subst hx
      rw [lookup_insertUsage_self]
      by_cases hl : x ∈ l
      · simp [hl, addSceneToSet_idem]
      · simp [hl]
    · rw [lookup_insertUsage_other u x a n hx]
      simp [List.mem_cons, (Ne.symm hx : a ≠ x)]

theorem usage_lookup_fold (scenes : List (String × List String))
    (u : List (String × List String)) (a : String) :
    (((scenes.foldl
          (fun acc sc => sc.2.foldl (fun u2 x => insertUsage u2 x sc.1) acc) u).lookup
        a).getD [])
      = addAll ((u.lookup a).getD []) (scenesUsing scenes a) := by
  induction scenes generalizing u with
  | nil => simp [addAll, scenesUsing]
  | cons sc rest ih =>
    simp only [List.foldl_cons]
    rw [ih, lookup_addScene_fold]
    by_cases h : a ∈ sc.2
    · simp [scenesUsing, h, addAll]
    · simp [scenesUsing, h, addAll]

theorem usage_lookup (scenes : List (String × List String)) (a : String) :
    (((buildUsage scenes).lookup a).getD []) = addAll [] (scenesUsing scenes a) := by
  unfold buildUsage
  rw [usage_lookup_fold]
  simp

theorem addAll_of_nodup (names : List String) (s : List String)
    (hd : ∀ n ∈ names, n ∉ s) (hn : names.Nodup) :
    addAll s names = s ++ names := by
  induction names generalizing s with
  | nil => simp [addAll]
  | cons n ns ih =>
    have hns : n ∉ s := hd n (List.mem_cons_self n ns)
    have hstep : addSceneToSet s n = s ++ [n] := by simp [addSceneToSet, hns]
    have hd2 : ∀ m ∈ ns, m ∉ s ++ [n] := by
      intro m hm
      simp only [List.mem_append, List.mem_singleton]
      rintro (hms | rfl)
      · exact hd m (List.mem_cons_of_mem n hm) hms
      · exact (List.nodup_cons.mp hn).1 hm
    have := ih (s ++ [n]) hd2 (List.nodup_cons.mp hn).2
    simp only [addAll, List.foldl_cons] at *
    rw [hstep, this, List.append_assoc]
    rfl

theorem insertUsage_values_ne (u : List (String × List String)) (a n : String)
    (h : ∀ p ∈ u, p.2 ≠ []) : ∀ p ∈ insertUsage u a n, p.2 ≠ [] := by
  induction u with
  | nil =>
    intro p hp
    simp only [insertUsage, List.mem_singleton] at hp
    subst hp
    simp
  | cons q rest ih =>
    obtain ⟨k, s⟩ := q
    intro p hp
    by_cases hk : k = a
    · subst hk
      simp only [insertUsage, if_pos, List.mem_cons] at hp
      rcases hp with hp | hp
      · exact hp ▸ addSceneToSet_ne_nil s n
      · exact h p (List.mem_cons_of_mem _ hp)
    · simp only [insertUsage, if_neg hk, List.mem_cons] at hp
      rcases hp with hp | hp
      · exact hp ▸ h (k, s) (List.mem_cons_self _ _)
      · exact ih (fun q hq => h q (List.mem_cons_of_mem _ hq)) p hp

theorem fold_insert_values_ne (n : String) (l : List String)
    (u : List (String × List String)) (h : ∀ p ∈ u, p.2 ≠ []) :
    ∀ p ∈ l.foldl (fun u2 x => insertUsage u2 x n) u, p.2 ≠ [] := by
  induction l generalizing u with
  | nil => simpa using h
  | cons x l ih =>
    simp only [List.foldl_cons]
    exact ih (insertUsage u x n) (insertUsage_values_ne u x n h)

theorem buildUsage_values_ne (scenes : List (String × List String)) :
    ∀ p ∈ buildUsage scenes, p.2 ≠ [] := by
  unfold buildUsage
  generalize hu : ([] : List (String × List String)) = u
  have hbase : ∀ p ∈ u, p.2 ≠ [] := by rw [← hu]; simp
  clear hu
  induction scenes generalizing u with
  | nil => simpa using hbase
  | cons sc rest ih =>
    simp only [List.foldl_cons]
    exact ih _ (fold_insert_values_ne sc.1 sc.2 u hbase)

theorem insertUsage_keys (u : List (String × List String)) (a n : String) :
    (insertUsage u a n).map Prod.fst
      = if a ∈ u.map Prod.fst then u.map Prod.fst else u.map Prod.fst ++ [a] := by
  induction u with
  | nil => simp [insertUsage]
  | cons q rest ih =>
    obtain ⟨k, s⟩ := q
    by_cases hk : k = a
    · subst hk
      simp [insertUsage]
    · simp only [insertUsage, if_neg hk, List.map_cons, ih]
      by_cases hm : a ∈ rest.map Prod.fst
      · simp [hm, Ne.symm hk]
      · simp [hm, Ne.symm hk]

theorem insertUsage_keys_nodup (u : List (String × List String)) (a n : String)
    (h : (u.map Prod.fst).Nodup) : ((insertUsage u a n).map Prod.fst).Nodup := by
  rw [insertUsage_keys]
  by_cases hm : a ∈ u.map Prod.fst
  · simpa [hm] using h
  · simp only [hm, if_false]
    rw [List.nodup_append]
    refine ⟨h, List.nodup_singleton a, ?_⟩
    intro x hx hxa
    rw [List.mem_singleton] at hxa
    subst hxa
    exact hm hx

theorem fold_insert_keys_nodup (n : String) (l : List String)
    (u : List (String × List String)) (h : (u.map Prod.fst).Nodup) :
    ((l.foldl (fun u2 x => insertUsage u2 x n) u).map Prod.fst).Nodup := by
  induction l generalizing u with
  | nil => simpa using h
  | cons x l ih =>
    simp only [List.foldl_cons]
    exact ih (insertUsage u x n) (insertUsage_keys_nodup u x n h)

theorem buildUsage_keys_nodup (scenes : List (String × List String)) :
    ((buildUsage scenes).map Prod.fst).Nodup := by
  unfold buildUsage
  generalize hu : ([] : List (String × List String)) = u
  have hbase : (u.map Prod.fst).Nodup := by rw [← hu]; simp
  clear hu
  induction scenes generalizing u with
  | nil => simpa using hbase
  | cons sc rest ih =>
    simp only [List.foldl_cons]
    exact ih _ (fold_insert_keys_nodup sc.1 sc.2 u hbase)

theorem lookup_mem (u : List (String × List String)) (a : String) (s : List String)
    (h : u.lookup a = some s) : (a, s) ∈ u := by
  induction u with
  | nil => simp [List.lookup] at h
  | cons p rest ih =>
    obtain ⟨k, v⟩ := p
    by_cases hk : a = k
    · subst hk
      simp only [List.lookup, beq_self_eq_true, Option.some.injEq] at h
      rw [← h]
      exact List.mem_cons_self _ _
    · have hf : (a == k) = false := beq_false_of_ne hk
      simp only [List.lookup, hf] at h
      exact List.mem_cons_of_mem _ (ih h)

theorem mem_lookup_of_keys_nodup (u : List (String × List String))
    (h : (u.map Prod.fst).Nodup) (a : String) (s : List String) (hm : (a, s) ∈ u) :
    u.lookup a = some s := by
  induction u with
  | nil => simp at hm
  | cons p rest ih =>
    simp only [List.map_cons, List.nodup_cons] at h
    rcases List.mem_cons.mp hm with h1 | h1
    · subst h1
      simp [List.lookup]
    · have hne : p.1 ≠ a := by
        rintro rfl
        exact h.1 (List.mem_map.mpr ⟨(p.1, s), h1, rfl⟩)
      obtain ⟨k, v⟩ := p
      simp only at hne
      simp [List.lookup, beq_false_of_ne (Ne.symm hne), ih h.2 h1]

theorem scenesUsing_length (scenes : List (String × List String)) (a : String) :
    (scenesUsing scenes a).length = scenes.countP (fun sc => decide (a ∈ sc.2)) := by
  simp [scenesUsing, List.countP_eq_length_filter]

theorem scenesUsing_nodup (scenes : List (String × List String)) (a : String)
    (hns : (scenes.map Prod.fst).Nodup) : (scenesUsing scenes a).Nodup := by
  unfold scenesUsing
  exact hns.sublist ((List.filter_sublist scenes).map Prod.fst)

theorem mem_shared_iff_lookup (scenes : List (String × List String)) (a : String) :
    a ∈ shared_assets scenes
      ↔ ∃ s, (buildUsage scenes).lookup a = some s ∧ 1 < s.length := by
  unfold shared_assets
  rw [List.mem_map]
  constructor
  · rintro ⟨p, hp, rfl⟩
    rw [List.mem_filter] at hp
    refine ⟨p.2, ?_, by simpa using hp.2⟩
    exact mem_lookup_of_keys_nodup _ (buildUsage_keys_nodup scenes) _ _ (by simpa using hp.1)
  · rintro ⟨s, hl, hlen⟩
    exact ⟨(a, s), List.mem_filter.mpr ⟨lookup_mem _ _ _ hl, by simpa using hlen⟩, rfl⟩

theorem usage_lookup_eq_scenesUsing (scenes : List (String × List String)) (a : String)
    (hns : (scenes.map Prod.fst).Nodup) :
    ((buildUsage scenes).lookup a).getD [] = scenesUsing scenes a := by
  rw [usage_lookup]
  have := addAll_of_nodup (scenesUsing scenes a) [] (by simp)
    (scenesUsing_nodup scenes a hns)
  rw [this]
  simp

theorem shared_iff_usedBy (scenes : List (String × List String)) (a : String)
    (hns : (scenes.map Prod.fst).Nodup) :
    a ∈ shared_assets scenes ↔ 2 ≤ scenes.countP (fun sc => decide (a ∈ sc.2)) := by
  rw [mem_shared_iff_lookup]
  constructor
  · rintro ⟨s, hl, hlen⟩
    have hs : s = scenesUsing scenes a := by
      have h2 := usage_lookup_eq_scenesUsing scenes a hns
      rw [hl] at h2
      simpa using h2
    rw [hs, scenesUsing_length] at hlen
    omega
  · intro h
    have hlen2 : 1 < (scenesUsing scenes a).length := by
      rw [scenesUsing_length]
      omega
    cases hl : (buildUsage scenes).lookup a with
    | none =>
      exfalso
      have h2 := usage_lookup_eq_scenesUsing scenes a hns
      rw [hl] at h2
      simp only [Option.getD_none] at h2
      rw [← h2] at hlen2
      simp at hlen2
    | some s =>
      refine ⟨s, rfl, ?_⟩
      have h2 := usage_lookup_eq_scenesUsing scenes a hns
      rw [hl] at h2
      simp only [Option.getD_some] at h2
      rw [h2]
      exact hlen2

/-- Claim C6: the usage analysis classifies a path as shared exactly when it
appears in the asset lists of at least two distinct scenes.  Since the
right-hand side counts scenes (not occurrences), repeating a path inside
one scene's list contributes a single use. -/
theorem claim_c6_shared_classification (scenes : List (String × List String)) (a : String)
    (hns : (scenes.map Prod.fst).Nodup) :
    a ∈ shared_assets scenes ↔ 2 ≤ scenes.countP (fun sc => decide (a ∈ sc.2)) :=
  shared_iff_usedBy scenes a hns

/-- Witness for C6 on the two-scene example: `y`, used by both scenes, is
classified as shared. -/
theorem claim_c6_witness :
    (([("A", ["x", "y"]), ("B", ["y", "z"])] : List (String × List String)).map
        Prod.fst).Nodup
    ∧ ("y" ∈ shared_assets [("A", ["x", "y"]), ("B", ["y", "z"])] ↔
        2 ≤ ([("A", ["x", "y"]), ("B", ["y", "z"])] : List (String × List String)).countP
          (fun sc => decide ("y" ∈ sc.2))) :=
  ⟨by decide, claim_c6_shared_classification _ _ (by decide)⟩

theorem shared_assets_nodup (scenes : List (String × List String)) :
    (shared_assets scenes).Nodup := by
  unfold shared_assets
  exact (buildUsage_keys_nodup scenes).sublist ((List.filter_sublist _).map Prod.fst)

theorem mem_scene_of_mem_shared (scenes : List (String × List String)) (a : String)
    (hns : (scenes.map Prod.fst).Nodup) (h : a ∈ shared_assets scenes) :
    ∃ sc ∈ scenes, a ∈ sc.2 := by
  have h2 := (shared_iff_usedBy scenes a hns).mp h
  have hpos : 0 < scenes.countP (fun sc => decide (a ∈ sc.2)) := by omega
  obtain ⟨sc, hsc, hp⟩ := List.countP_pos_iff.mp hpos
  exact ⟨sc, hsc, by simpa using hp⟩

theorem count_filter_str (p : String → Bool) (l : List String) (a : String) :
    (l.filter p).count a = if p a = true then l.count a else 0 := by
  by_cases h : p a = true
  · simp [h, List.count_filter]
  · simp only [h, if_false]
    refine List.count_eq_zero.mpr fun hm => ?_
    rw [List.mem_filter] at hm
    exact h hm.2

/-! ## Orchestrator lemmas -/

theorem runBins_cons_some (resolver : String → Option (List Nat)) (st : MainState)
    (name : String) (assets : List String) (rest : List (String × List String))
    (packed : List Entry × List Nat)
    (hpk : packBin assets resolver = some packed) :
    runBins resolver st ((name, assets) :: rest)
      = runBins resolver (stepState st name packed) rest := by
  simp [runBins, hpk, stepState]

theorem runBins_spec (resolver : String → Option (List Nat))
    (plan : List (String × List String)) (st : MainState) :
    ∃ k, k ≤ plan.length
    ∧ ((runBins resolver st plan).2 = true → k = plan.length)
    ∧ ((runBins resolver st plan).2 = false →
        k < plan.length ∧ packBin ((plan.getD k ("", [])).2) resolver = none)
    ∧ (∀ b ∈ plan.take k, packBin b.2 resolver ≠ none)
    ∧ (runBins resolver st plan).1.nextBinId = st.nextBinId + k
    ∧ (runBins resolver st plan).1.binIds
        = st.binIds
          ++ (List.enumFrom st.nextBinId ((plan.take k).map Prod.fst)).map
              (fun q => (q.2, q.1))
    ∧ (runBins resolver st plan).1.files
        = st.files ++ (plan.take k).map (fun b => (b.1, (packedOf resolver b).2))
    ∧ (runBins resolver st plan).1.assetIndex
        = st.assetIndex
          ++ ((List.enumFrom st.nextBinId (plan.take k)).map
              (recordsOf resolver)).flatten := by
  induction plan generalizing st with
  | nil =>
    refine ⟨0, ?_⟩
    simp [runBins]
  | cons b rest ih =>
    obtain ⟨name, assets⟩ := b
    cases hpk : packBin assets resolver with
    | none =>
      refine ⟨0, ?_⟩
      simp [runBins, hpk]
    | some packed =>
      obtain ⟨k, hk, hok, hfail, hall, hnext, hbin, hfiles, hidx⟩ :=
        ih (stepState st name packed)
      have hrun := runBins_cons_some resolver st name assets rest packed hpk
      have hpo : packedOf resolver (name, assets) = packed := by
        simp [packedOf, hpk]
      refine ⟨k + 1, by simpa using Nat.succ_le_succ hk, ?_, ?_, ?_, ?_, ?_, ?_, ?_⟩
      · rw [hrun]
        intro h
        simp [hok h]
      · rw [hrun]
        intro h
        obtain ⟨h1, h2⟩ := hfail h
        exact ⟨by simpa using Nat.succ_lt_succ h1, by simpa using h2⟩
      · intro q hq
        rw [List.take_succ_cons, List.mem_cons] at hq
        rcases hq with hq | hq
        · rw [hq]
          simp [hpk]
        · exact hall q hq
      · rw [hrun, hnext]
        simp [stepState]
        omega
      · rw [hrun, hbin]
        simp [stepState, List.enumFrom, List.append_assoc]
      · rw [hrun, hfiles]
        simp [stepState, hpo, List.append_assoc]
      · rw [hrun, hidx]
        simp [stepState, recordsOf, hpo, List.enumFrom, List.append_assoc]

theorem runMain_success_state (scenes : List (String × List String))
    (resolver : String → Option (List Nat))
    (h : (runMain scenes resolver).ok = true) :
    (runMain scenes resolver).st.binIds
      = (List.enumFrom 0 ((binPlan scenes).map Prod.fst)).map (fun q => (q.2, q.1))
    ∧ (runMain scenes resolver).st.files
        = (binPlan scenes).map (fun b => (b.1, (packedOf resolver b).2))
    ∧ (runMain scenes resolver).st.assetIndex
        = ((List.enumFrom 0 (binPlan scenes)).map (recordsOf resolver)).flatten
    ∧ (∀ b ∈ binPlan scenes, packBin b.2 resolver ≠ none)
    ∧ (runMain scenes resolver).idxFile
        = some (indexFileBytes (runMain scenes resolver).st.assetIndex) := by
  obtain ⟨k, hk, hok, hfail, hall, hnext, hbin, hfiles, hidx⟩ :=
    runBins_spec resolver (binPlan scenes) initState
  have hok2 : (runBins resolver initState (binPlan scenes)).2 = true := by
    simpa [runMain] using h
  have hkk := hok hok2
  subst hkk
  rw [List.take_length] at hall hbin hfiles hidx
  refine ⟨?_, ?_, ?_, hall, ?_⟩
  · show (runBins resolver initState (binPlan scenes)).1.binIds = _
    rw [hbin]
    simp [initState]
  · show (runBins resolver initState (binPlan scenes)).1.files = _
    rw [hfiles]
    simp [initState]
  · show (runBins resolver initState (binPlan scenes)).1.assetIndex = _
    rw [hidx]
    simp [initState]
  · simp [runMain, hok2]

theorem runMain_failure_state (scenes : List (String × List String))
    (resolver : String → Option (List Nat))
    (h : (runMain scenes resolver).ok = false) :
    (runMain scenes resolver).idxFile = none
    ∧ ∃ k, k < (binPlan scenes).length
        ∧ (runMain scenes resolver).st.files
            = ((binPlan scenes).take k).map (fun b => (b.1, (packedOf resolver b).2))
        ∧ packBin (((binPlan scenes).getD k ("", [])).2) resolver = none
        ∧ ∀ b ∈ (binPlan scenes).take k, packBin b.2 resolver ≠ none := by
  obtain ⟨k, hk, hok, hfail, hall, hnext, hbin, hfiles, hidx⟩ :=
    runBins_spec resolver (binPlan scenes) initState
  have hfl : (runBins resolver initState (binPlan scenes)).2 = false := by
    simpa [runMain] using h
  obtain ⟨hklt, hnone⟩ := hfail hfl
  refine ⟨by simp [runMain, hfl], k, hklt, ?_, hnone, hall⟩
  show (runBins resolver initState (binPlan scenes)).1.files = _
  rw [hfiles]
  simp [initState]

/-- Claim C7: bin ids are dense and zero-based, assigned in plan order:
the shared bin (when the shared set is non-empty) comes first in the plan
and so receives id 0; when the shared set is empty the plan consists of the
scene bins alone, so the first scene bin receives id 0; scene bins follow
the orchestrator's scene iteration order with consecutive ids. -/
theorem claim_c7_bin_ids (scenes : List (String × List String))
    (resolver : String → Option (List Nat))
    (hok : (runMain scenes resolver).ok = true) :
    (runMain scenes resolver).st.binIds
      = (List.enumFrom 0 ((binPlan scenes).map Prod.fst)).map (fun q => (q.2, q.1))
    ∧ (runMain scenes resolver).st.binIds.map Prod.snd
        = List.range (binPlan scenes).length
    ∧ (shared_assets scenes ≠ [] →
        (binPlan scenes).headD ("", []) = ("shared.bin", shared_assets scenes))
    ∧ (shared_assets scenes = [] →
        binPlan scenes = (scene_only scenes).filterMap
          (fun sc => if sc.2 = [] then none else some (sc.1 ++ ".bin", sc.2))) := by
  have h1 := (runMain_success_state scenes resolver hok).1
  refine ⟨h1, ?_, ?_, ?_⟩
  · rw [h1, List.map_map]
    have : (Prod.snd ∘ fun q : Nat × String => (q.2, q.1)) = Prod.fst := rfl
    rw [this, List.enumFrom_map_fst, List.range_eq_range']
    simp
  · intro hne
    simp [binPlan, hne]
  · intro he
    simp [binPlan, he]

/-- Witness for C7 on the two-scene example: the run succeeds and the
assigned bin ids are exactly `0, 1, 2` in plan order. -/
theorem claim_c7_witness :
    (runMain [("A", ["x", "y"]), ("B", ["y", "z"])]
        (fun _ => some [9])).st.binIds.map Prod.snd
      = List.range (binPlan [("A", ["x", "y"]), ("B", ["y", "z"])]).length :=
  (claim_c7_bin_ids _ _ (by decide)).2.1

/-- Claim C8 counterexample: on a run whose second scene's asset is
unreadable, the pack aborts, yet the first scene's bin file `a.bin` has
already been written and remains on disk — partial output from the failed
run. -/
theorem claim_c8_counterexample :
    (runMain [("a", ["x"]), ("b", ["y"])]
        (fun p => if p = "x" then some [5] else none)).ok = false
    ∧ ((runMain [("a", ["x"]), ("b", ["y"])]
        (fun p => if p = "x" then some [5] else none)).st.files.map Prod.fst) = ["a.bin"]
    ∧ ¬ (runMain [("a", ["x"]), ("b", ["y"])]
        (fun p => if p = "x" then some [5] else none)).st.files = [] := by
  refine ⟨by decide, by decide, by decide⟩

/-- Claim C8 (amended): on a failing run the index file is never written and
the failing bin itself is never written (each bin is fully buffered in
memory before its single write), but every bin completed before the failure
has already been written and remains on disk. -/
theorem claim_c8_amended_partial_output (scenes : List (String × List String))
    (resolver : String → Option (List Nat))
    (hfail : (runMain scenes resolver).ok = false) :
    (runMain scenes resolver).idxFile = none
    ∧ ∃ k, k < (binPlan scenes).length
        ∧ (runMain scenes resolver).st.files
            = ((binPlan scenes).take k).map (fun b => (b.1, (packedOf resolver b).2))
        ∧ packBin (((binPlan scenes).getD k ("", [])).2) resolver = none := by
  obtain ⟨h1, k, h2, h3, h4, -⟩ := runMain_failure_state scenes resolver hfail
  exact ⟨h1, k, h2, h3, h4⟩

/-- Witness for C8 (amended): the aborted two-scene run writes no index
file. -/
theorem claim_c8_amended_witness :
    (runMain [("a", ["x"]), ("b", ["y"])]
        (fun p => if p = "x" then some [5] else none)).idxFile = none :=
  (claim_c8_amended_partial_output _ _ (by decide)).1

/-- Claim C4 (amended): every index record carries exactly the `(asset,
offset, size)` of the bin entry it came from, and entry offsets are
file-absolute: header size plus entry-table size plus the sizes of the
preceding entries — not relative to the start of the data segment. -/
theorem claim_c4_amended_absolute_offsets (scenes : List (String × List String))
    (resolver : String → Option (List Nat))
    (hok : (runMain scenes resolver).ok = true) :
    (runMain scenes resolver).st.assetIndex
      = ((List.enumFrom 0 (binPlan scenes)).map (recordsOf resolver)).flatten
    ∧ (∀ ib : Nat × (String × List String), ∀ rec ∈ recordsOf resolver ib,
        ∃ e ∈ (packedOf resolver ib.2).1,
          rec.asset = e.asset ∧ rec.offset = e.offset ∧ rec.size = e.size)
    ∧ (∀ b ∈ binPlan scenes, ∀ i, i < (packedOf resolver b).1.length →
        ((packedOf resolver b).1.getD i default).offset
          = header_size + entryTableSize (packedOf resolver b).1
            + (((packedOf resolver b).1.take i).map Entry.size).sum) := by
  obtain ⟨-, -, hindex, hall, -⟩ := runMain_success_state scenes resolver hok
  refine ⟨hindex, ?_, ?_⟩
  · intro ib rec hrec
    unfold recordsOf at hrec
    obtain ⟨e, he, hre⟩ := List.mem_map.mp hrec
    exact ⟨e, he, by rw [← hre], by rw [← hre], by rw [← hre]⟩
  · intro b hb i hi
    have hsome := hall b hb
    cases hpk : packBin b.2 resolver with
    | none => exact absurd hpk hsome
    | some pr =>
      have hpo : packedOf resolver b = pr := by simp [packedOf, hpk]
      rw [hpo] at hi ⊢
      have hpk2 : packBin b.2 resolver = some (pr.1, pr.2) := by
        rw [hpk]
      rw [packBin_getD b.2 resolver pr.1 pr.2 hpk2 i hi]

/-- Witness for C4 (amended): index records of a concrete successful run
coincide with its bins' entries. -/
theorem claim_c4_amended_witness :
    (runMain [("A", ["x"])] (fun _ => some [1])).st.assetIndex
      = ((List.enumFrom 0 (binPlan [("A", ["x"])])).map
          (recordsOf (fun _ => some [1]))).flatten :=
  (claim_c4_amended_absolute_offsets _ _ (by decide)).1

theorem serIndexRecord_length (r : IndexRecord) :
    (serIndexRecord r).length = 24 + (utf8Bytes r.asset).length := by
  simp [serIndexRecord, le32, le64, le_length]
  omega

theorem le32_length (n : Nat) : (le32 n).length = 4 := by
  simp [le32, le_length]

/-- Claim C3 counterexample: the claim forces an index with one record to be
`4 + 28·1 = 32` bytes (4-byte count plus a fixed 28-byte record with an
8-byte AssetId).  The program's index for the single asset `"ab"` is 30
bytes: its records are variable-length — 4-byte path length, the UTF-8 path
bytes, 4-byte binId, 8-byte offset, 8-byte size — with no 8-byte id. -/
theorem claim_c3_counterexample :
    ((runMain [("s", ["ab"])] (fun _ => some [1])).idxFile.map List.length) = some 30
    ∧ (30 : Nat) ≠ 4 + 28 * 1 :=
  ⟨by decide, by decide⟩

/-- Claim C3 (amended): the index file produced at the end of every
completed run is a 4-byte little-endian record count followed by one
variable-length record per asset: 4-byte little-endian path length, the
UTF-8 path bytes, then 4-byte binId, 8-byte offset, 8-byte size, all
little-endian — `24 + len(path)` bytes per record. -/
theorem claim_c3_amended_index_layout (scenes : List (String × List String))
    (resolver : String → Option (List Nat)) (records : List IndexRecord)
    (hok : (runMain scenes resolver).ok = true) :
    (runMain scenes resolver).idxFile
      = some (indexFileBytes (runMain scenes resolver).st.assetIndex)
    ∧ (indexFileBytes records).take 4 = le32 records.length
    ∧ (indexFileBytes records).drop 4 = (records.map serIndexRecord).flatten
    ∧ (∀ r ∈ records, serIndexRecord r
        = le32 (utf8Bytes r.asset).length ++ utf8Bytes r.asset
          ++ le32 r.binId ++ le64 r.offset ++ le64 r.size)
    ∧ (∀ r ∈ records, (serIndexRecord r).length = 24 + (utf8Bytes r.asset).length)
    ∧ (indexFileBytes records).length
        = 4 + (records.map (fun r => 24 + (utf8Bytes r.asset).length)).sum := by
  refine ⟨(runMain_success_state scenes resolver hok).2.2.2.2, ?_, ?_,
    fun r _ => rfl, fun r _ => serIndexRecord_length r, ?_⟩
  · unfold indexFileBytes
    rw [← le32_length records.length]
    simp
  · unfold indexFileBytes
    rw [← le32_length records.length]
    simp
  · unfold indexFileBytes
    simp only [List.length_append, le32_length, List.length_flatten, List.map_map]
    congr 1
    refine congrArg List.sum (List.map_congr_left fun r _ => ?_)
    exact serIndexRecord_length r

/-- Witness for C3 (amended): the one-scene run writes the serialized index
of its accumulated records. -/
theorem claim_c3_amended_witness :
    (runMain [("s", ["ab"])] (fun _ => some [1])).idxFile
      = some (indexFileBytes
          (runMain [("s", ["ab"])] (fun _ => some [1])).st.assetIndex) :=
  (claim_c3_amended_index_layout _ _ [] (by decide)).1

/-! ## Counting index records per asset (for C5) -/

theorem countAsset_flatten (ll : List (List IndexRecord)) (a : String) :
    countAsset ll.flatten a = (ll.map (fun l => countAsset l a)).sum := by
  induction ll with
  | nil => rfl
  | cons l ls ih =>
    show countAsset (l ++ ls.flatten) a = _
    unfold countAsset at *
    rw [List.filter_append, List.length_append, ih]
    simp

theorem countAsset_map_entry (es : List Entry) (idb : Nat) (a : String) :
    countAsset (es.map (fun e =>
        ({ asset := e.asset, binId := idb, offset := e.offset, size := e.size } :
          IndexRecord))) a
      = (es.map Entry.asset).count a := by
  induction es with
  | nil => rfl
  | cons e es ih =>
    by_cases h : e.asset == a
    · simp only [List.map_cons, countAsset, List.count_cons] at *
      simp [h, ih]
    · simp only [List.map_cons, countAsset, List.count_cons] at *
      simp [h, ih]

theorem countAsset_recordsOf (resolver : String → Option (List Nat))
    (ib : Nat × (String × List String)) (a : String) :
    countAsset (recordsOf resolver ib) a
      = ((packedOf resolver ib.2).1.map Entry.asset).count a := by
  unfold recordsOf
  exact countAsset_map_entry _ _ a

theorem map_norm_id (l : List String) (h : ∀ x ∈ l, normalizeSlashes x = x) :
    l.map normalizeSlashes = l := by
  rw [List.map_congr_left h]
  simp

theorem countAsset_index_total (scenes : List (String × List String))
    (resolver : String → Option (List Nat)) (a : String)
    (hok : (runMain scenes resolver).ok = true) :
    countAsset (runMain scenes resolver).st.assetIndex a
      = ((binPlan scenes).map (fun b => (b.2.map normalizeSlashes).count a)).sum := by
  obtain ⟨-, -, hindex, hall, -⟩ := runMain_success_state scenes resolver hok
  rw [hindex, countAsset_flatten, List.map_map]
  have h1 : ((List.enumFrom 0 (binPlan scenes)).map
        ((fun l => countAsset l a) ∘ recordsOf resolver))
      = (List.enumFrom 0 (binPlan scenes)).map
          (fun ib => ((packedOf resolver ib.2).1.map Entry.asset).count a) :=
    List.map_congr_left fun ib _ => countAsset_recordsOf resolver ib a
  rw [h1]
  have h2 : (List.enumFrom 0 (binPlan scenes)).map
        (fun ib => ((packedOf resolver ib.2).1.map Entry.asset).count a)
      = ((List.enumFrom 0 (binPlan scenes)).map Prod.snd).map
          (fun b => ((packedOf resolver b).1.map Entry.asset).count a) := by
    rw [List.map_map]
    rfl
  rw [h2, List.enumFrom_map_snd]
  refine congrArg List.sum (List.map_congr_left fun b hb => ?_)
  have hsome := hall b hb
  cases hpk : packBin b.2 resolver with
  | none => exact absurd hpk hsome
  | some pr =>
    have hpo : packedOf resolver b = pr := by simp [packedOf, hpk]
    rw [hpo, packBin_map_asset b.2 resolver pr.1 pr.2 (by rw [hpk])]

theorem sum_count_filterMap (l : List (String × List String)) (a : String) :
    ((l.filterMap (fun sc => if sc.2 = [] then none
        else some (sc.1 ++ ".bin", sc.2))).map (fun b => b.2.count a)).sum
      = (l.map (fun sc => sc.2.count a)).sum := by
  induction l with
  | nil => rfl
  | cons sc rest ih =>
    by_cases h : sc.2 = []
    · simp [List.filterMap_cons, h, ih]
    · simp [List.filterMap_cons, h, ih]

theorem plan_count_sum (scenes : List (String × List String)) (a : String) :
    ((binPlan scenes).map (fun b => b.2.count a)).sum
      = (shared_assets scenes).count a
        + ((scene_only scenes).map (fun sc => sc.2.count a)).sum := by
  unfold binPlan
  rw [List.map_append, List.sum_append, sum_count_filterMap]
  congr 1
  by_cases h : shared_assets scenes = []
  · rw [h]
    simp
  · simp [h]

theorem plan_assets_normalized (scenes : List (String × List String))
    (hns : (scenes.map Prod.fst).Nodup)
    (hnorm : ∀ sc ∈ scenes, ∀ x ∈ sc.2, normalizeSlashes x = x) :
    ∀ b ∈ binPlan scenes, ∀ x ∈ b.2, normalizeSlashes x = x := by
  intro b hb x hx
  unfold binPlan at hb
  rcases List.mem_append.mp hb with hb | hb
  · by_cases h : shared_assets scenes = []
    · rw [h] at hb
      simp at hb
    · rw [if_neg h] at hb
      rw [List.mem_singleton] at hb
      rw [hb] at hx
      obtain ⟨sc, hsc, hmem⟩ := mem_scene_of_mem_shared scenes x hns hx
      exact hnorm sc hsc x hmem
  · obtain ⟨sc, hsc, hsome⟩ := List.mem_filterMap.mp hb
    by_cases h : sc.2 = []
    · rw [if_pos h] at hsome
      exact absurd hsome (by simp)
    · rw [if_neg h] at hsome
      obtain ⟨sc0, hsc0, hmk⟩ := List.mem_map.mp hsc
      have hx2 : x ∈ sc.2 := by
        rw [← Option.some_inj.mp hsome] at hx
        exact hx
      rw [← hmk] at hx2
      simp only at hx2
      have hx3 : x ∈ sc0.2 := List.mem_of_mem_filter hx2
      exact hnorm sc0 hsc0 x hx3

theorem sum_map_ite_one (l : List (String × List String))
    (p : String × List String → Bool) :
    (l.map (fun sc => if p sc = true then 1 else 0)).sum = l.countP p := by
  induction l with
  | nil => rfl
  | cons sc rest ih =>
    by_cases h : p sc = true <;> simp [List.countP_cons, h, ih, Nat.add_comm]

theorem countP_congr_str {γ : Type} (l : List γ) (p q : γ → Bool)
    (h : ∀ x ∈ l, p x = q x) : l.countP p = l.countP q := by
  induction l with
  | nil => rfl
  | cons x rest ih =>
    simp [List.countP_cons, h x (by simp), ih (fun y hy => h y (by simp [hy]))]

/-- Claim C5 counterexample: a scene listing the same scene-only path twice
gets it packed twice.  On the single scene `s = [p, p]` the run succeeds
and the index holds two records for `p`, violating "no path packed
twice". -/
theorem claim_c5_counterexample :
    countAsset (runMain [("s", ["p", "p"])] (fun _ => some [7])).st.assetIndex "p" = 2
    ∧ (2 : Nat) ≠ 1 :=
  ⟨by decide, by decide⟩

/-- Claim C5 (amended): when every scene's asset list is duplicate-free
(the original claim fails on within-scene duplicates), every path appearing
in some scene is packed into exactly one entry across all produced bins on
a successful run: it appears in exactly one index record; if it is used by
two or more scenes it sits (once) in the shared list and in no scene bin,
and if it is used by exactly one scene it is absent from the shared list
and present in exactly one scene bin. -/
theorem claim_c5_amended_exactly_once (scenes : List (String × List String))
    (resolver : String → Option (List Nat)) (a : String)
    (hns : (scenes.map Prod.fst).Nodup)
    (hnorm : ∀ sc ∈ scenes, ∀ x ∈ sc.2, normalizeSlashes x = x)
    (hdup : ∀ sc ∈ scenes, sc.2.Nodup)
    (ha : ∃ sc ∈ scenes, a ∈ sc.2)
    (hok : (runMain scenes resolver).ok = true) :
    countAsset (runMain scenes resolver).st.assetIndex a = 1
    ∧ (2 ≤ scenes.countP (fun sc => decide (a ∈ sc.2)) →
        (shared_assets scenes).count a = 1 ∧ ∀ sc ∈ scene_only scenes, a ∉ sc.2)
    ∧ (scenes.countP (fun sc => decide (a ∈ sc.2)) = 1 →
        a ∉ shared_assets scenes
        ∧ (scene_only scenes).countP (fun sc => decide (a ∈ sc.2)) = 1) := by
  have hplanNorm := plan_assets_normalized scenes hns hnorm
  have htot : countAsset (runMain scenes resolver).st.assetIndex a
      = ((binPlan scenes).map (fun b => b.2.count a)).sum := by
    rw [countAsset_index_total scenes resolver a hok]
    refine congrArg List.sum (List.map_congr_left fun b hb => ?_)
    rw [map_norm_id b.2 (hplanNorm b hb)]
  rw [htot, plan_count_sum]
  have hposs : 0 < scenes.countP (fun sc => decide (a ∈ sc.2)) := by
    obtain ⟨sc, hsc, hmm⟩ := ha
    exact List.countP_pos_iff.mpr ⟨sc, hsc, by simpa using hmm⟩
  by_cases h2 : 2 ≤ scenes.countP (fun sc => decide (a ∈ sc.2))
  · have hsh : a ∈ shared_assets scenes := (shared_iff_usedBy scenes a hns).mpr h2
    have hc1 : (shared_assets scenes).count a = 1 :=
      List.count_eq_one_of_mem (shared_assets_nodup scenes) hsh
    have hnotmem : ∀ sc ∈ scene_only scenes, a ∉ sc.2 := by
      intro sc hsc hmem
      obtain ⟨sc0, hsc0, hmk⟩ := List.mem_map.mp hsc
      rw [← hmk] at hmem
      simp only at hmem
      have hq := (List.mem_filter.mp hmem).2
      simp at hq
      exact hq hsh
    have hzero : ((scene_only scenes).map (fun sc => sc.2.count a)).sum = 0 := by
      refine List.sum_eq_zero ?_
      intro x hx
      obtain ⟨sc, hsc, hxe⟩ := List.mem_map.mp hx
      rw [← hxe]
      exact List.count_eq_zero.mpr (hnotmem sc hsc)
    rw [hc1, hzero]
    exact ⟨rfl, fun _ => ⟨rfl, hnotmem⟩, fun h1 => absurd h1 (by omega)⟩
  · have h1 : scenes.countP (fun sc => decide (a ∈ sc.2)) = 1 := by omega
    have hnsh : a ∉ shared_assets scenes := fun hc =>
      h2 ((shared_iff_usedBy scenes a hns).mp hc)
    have hc0 : (shared_assets scenes).count a = 0 := List.count_eq_zero.mpr hnsh
    have hsum1 : ((scene_only scenes).map (fun sc => sc.2.count a)).sum
        = (scenes.map (fun sc0 => sc0.2.count a)).sum := by
      unfold scene_only
      rw [List.map_map]
      refine congrArg List.sum (List.map_congr_left fun sc0 hsc0 => ?_)
      show (sc0.2.filter (fun x => decide (x ∉ shared_assets scenes))).count a
          = sc0.2.count a
      rw [count_filter_str]
      simp [hnsh]
    have hind : ∀ sc0 ∈ scenes, sc0.2.count a
        = if (fun sc : String × List String => decide (a ∈ sc.2)) sc0 = true
          then 1 else 0 := by
      intro sc0 hsc0
      by_cases hm : a ∈ sc0.2
      · rw [if_pos (by simpa using hm)]
        exact List.count_eq_one_of_mem (hdup sc0 hsc0) hm
      · rw [if_neg (by simpa using hm)]
        exact List.count_eq_zero.mpr hm
    have hsum2 : (scenes.map (fun sc0 => sc0.2.count a)).sum
        = scenes.countP (fun sc => decide (a ∈ sc.2)) := by
      rw [List.map_congr_left hind]
      exact sum_map_ite_one scenes _
    have hcp : (scene_only scenes).countP (fun sc => decide (a ∈ sc.2))
        = scenes.countP (fun sc => decide (a ∈ sc.2)) := by
      unfold scene_only
      rw [List.countP_map]
      refine countP_congr_str scenes _ _ fun sc0 hsc0 => ?_
      simp [Function.comp, List.mem_filter, hnsh]
    rw [hc0, hsum1, hsum2, h1]
    exact ⟨rfl, fun hge => absurd hge (by omega), fun _ => ⟨hnsh, by rw [hcp, h1]⟩⟩

/-- Witness for C5 (amended) on the two-scene example: the shared asset `y`
ends up in exactly one index record. -/
theorem claim_c5_witness :
    countAsset (runMain [("A", ["x", "y"]), ("B", ["y", "z"])]
        (fun _ => some [9])).st.assetIndex "y" = 1 :=
  (claim_c5_amended_exactly_once [("A", ["x", "y"]), ("B", ["y", "z"])]
    (fun _ => some [9]) "y" (by decide) (by decide) (by decide)
    (by decide) (by decide)).1

end AssetsPackager
